import Mathlib

/-!
Verification development for the ingredient-search service in
AI_Check_Ingredient/api_server.py.

The Python module is a thin Flask wrapper around a hybrid scoring pipeline.
This file gives a shallow embedding of that pipeline and of the
initialization / cache-validation logic, and proves (or refutes) the
specified properties about them.

Modelling conventions:
- Python floats are modelled as exact rationals.  The function round with
  ndigits is modelled as round-half-to-even on rationals, matching the
  Python semantics of round on exactly representable values.
- The sentence-transformer encoder, the rapidfuzz token_set_ratio function
  and the cosine-similarity kernel are external components.  The encoder is
  an abstract parameter encode : String -> List Rat; token_set_ratio is an
  abstract parameter tsr : String -> String -> Rat (its documented range is
  0..100); cosine similarity of the unit-normalized embeddings produced by
  encode(..., normalize_embeddings=True) equals the dot product, so the
  similarity of two stored vectors is modelled as their dot product.
- np.argsort guarantees only an index permutation with ascending values:
  its default introsort is documented as not stable, so no tie order among
  equal values is guaranteed at catalog scale.  Theorems about recall
  ordering therefore quantify over every index list that is a valid
  ascending argsort (IsAscArgsort).  The concrete realization argsortAsc
  used inside search_ai is the stable ascending sort, which is what numpy
  computes below its insertion-sort threshold of about sixteen elements,
  and in particular on every concrete scenario evaluated in this file.
  Python sorted(..., reverse=True) is documented stable and is modelled
  exactly by a stable sort; both sorts are realized with
  List.insertionSort, which is stable.
- The external cosine kernel validates its input and rejects a zero-row
  embedding matrix (the stored embeddings of an empty catalog form a
  one-dimensional empty array, failing its two-dimensional check with a
  ValueError, which the route handler surfaces as a 500 response).  The
  function search_ai_checked models that raise as none; search_ai is the
  happy-path restriction, exact for nonempty catalogs.
- str.casefold composed with unicodedata.normalize("NFKC", -) is modelled
  character by character via an explicit table that is exact on the Basic
  Latin, Latin-1 Supplement and Latin Extended-A blocks (U+0000..U+017F)
  and on U+2011; every character outside those blocks is left unchanged by
  the modelled fold.  Characters outside U+00C0..U+017F that are neither
  ASCII keepers nor dashes are erased by the subsequent character-class
  filter in both the model and the real code, so the model agrees with the
  real normalizer on all inputs drawn from the modelled blocks; it is a
  documented approximation for exotic code points (for example ligatures
  above U+017F) and for unnormalized combining sequences.
-/

/-- Configured model identifier (MODEL_NAME in api_server.py). -/
def MODEL_NAME : String := "sentence-transformers/distiluse-base-multilingual-cased-v2"

/-- Default number of returned results (TOP_K_DEFAULT). -/
def TOP_K_DEFAULT : ℕ := 10

/-- Number of recall candidates fetched before blending (RECALL_K). -/
def RECALL_K : ℕ := 200

/-- Weight of the (boosted) semantic score in the blend (ALPHA_SEM). -/
def ALPHA_SEM : ℚ := 0.75

/-- Confidence floor, as a fraction (MIN_CONFIDENCE). -/
def MIN_CONFIDENCE : ℚ := 0.50

/-- Per-section boost table (SECTION_BOOST). -/
def SECTION_BOOST : List (String × ℚ) :=
  [("CANON_LAT", 1.05), ("CANON_EN", 1.00), ("SYN_LAT", 0.95)]

/-- Translation of section_boost (api_server.py lines 73-79): dictionary
lookup in SECTION_BOOST, otherwise 1.00 for sections starting with COMMON_,
otherwise 1.00. -/
def section_boost (sec : String) : ℚ :=
  match SECTION_BOOST.lookup sec with
  | some b => b
  | none => if sec.startsWith "COMMON_" then 1.00 else 1.00

/-- Exceptional character mappings of NFKC after casefold, outside the
regular uppercase-to-lowercase pattern, for the modelled blocks.  Each pair
maps a code point to the code points of its folded image.  Entries cover
the Latin-1 Supplement compatibility characters, the German sharp s, the
dotted capital I, the ij and l-middle-dot ligatures, the n-with-apostrophe
ligature, the capital Y with diaeresis, the long s, and the non-breaking
hyphen. -/
def foldSpecials : List (ℕ × List ℕ) :=
  [(0xA0, [0x20]), (0xA8, [0x20, 0x308]), (0xAA, [0x61]), (0xAF, [0x20, 0x304]),
   (0xB2, [0x32]), (0xB3, [0x33]), (0xB4, [0x20, 0x301]), (0xB5, [0x3BC]),
   (0xB8, [0x20, 0x327]), (0xB9, [0x31]), (0xBA, [0x6F]),
   (0xBC, [0x31, 0x2044, 0x34]), (0xBD, [0x31, 0x2044, 0x32]), (0xBE, [0x33, 0x2044, 0x34]),
   (0xDF, [0x73, 0x73]),
   (0x130, [0x69, 0x307]), (0x132, [0x69, 0x6A]), (0x133, [0x69, 0x6A]),
   (0x13F, [0x6C, 0xB7]), (0x140, [0x6C, 0xB7]), (0x149, [0x2BC, 0x6E]),
   (0x178, [0xFF]), (0x17F, [0x73]),
   (0x2011, [0x2010])]

/-- Regular uppercase-to-lowercase case-folding pairs of the modelled
blocks: ASCII A-Z, Latin-1 Supplement U+00C0..U+00DE except the
multiplication sign, and the Latin Extended-A case pairs (skipping the
code points listed in foldSpecials). -/
def upperRanges : List (ℕ × List ℕ) :=
  ((List.range 26).map (fun i => (0x41 + i, [0x61 + i]))) ++
  (((List.range 31).filter (fun i => decide (i ≠ 0x17))).map (fun i => (0xC0 + i, [0xE0 + i]))) ++
  (((List.range 28).filter (fun i => decide (i ≠ 24) && decide (i ≠ 25))).map
    (fun i => (0x100 + 2 * i, [0x101 + 2 * i]))) ++
  (((List.range 8).filter (fun i => decide (i ≠ 3))).map
    (fun i => (0x139 + 2 * i, [0x13A + 2 * i]))) ++
  ((List.range 23).map (fun i => (0x14A + 2 * i, [0x14B + 2 * i]))) ++
  [(0x179, [0x17A]), (0x17B, [0x17C]), (0x17D, [0x17E])]

/-- Full fold table: the union of the regular pairs and the exceptions. -/
def foldTable : List (ℕ × List ℕ) := upperRanges ++ foldSpecials

/-- Character-level model of NFKC after casefold: table driven, identity
outside the table. -/
def charFold (c : Char) : List Char :=
  match foldTable.lookup c.toNat with
  | some ds => ds.map Char.ofNat
  | none => [c]

/-- Dash-like code points collapsed to a hyphen by the regex on line 67:
the minus sign U+2212 and the range U+2010..U+2015. -/
def dashRange (n : ℕ) : Bool :=
  n == 0x2212 || (0x2010 ≤ n && n ≤ 0x2015)

/-- Collapse dash-like characters to a plain hyphen (regex substitution on
line 67 of api_server.py). -/
def dashToHyphen (c : Char) : Char :=
  if dashRange c.toNat then '-' else c

/-- Character class kept by the regex on line 68: lowercase ASCII letters,
digits, space, hyphen, and the range U+00C0..U+017F. -/
def isKeptNat (n : ℕ) : Bool :=
  (0x61 ≤ n && n ≤ 0x7A) || (0x30 ≤ n && n ≤ 0x39) ||
  n == 0x20 || n == 0x2D || (0xC0 ≤ n && n ≤ 0x17F)

/-- Character class check lifted to Char. -/
def isKept (c : Char) : Bool := isKeptNat c.toNat

/-- Replace every character outside the kept class with a space (regex
substitution on line 68). -/
def keepOrSpace (c : Char) : Char :=
  if isKept c then c else ' '

/-- Collapse every run of spaces to a single space (regex substitution on
line 69).  The flag records whether the previous character was a space.
After the class filter the only whitespace character left is the space, so
the generic whitespace class of the regex degenerates to the space. -/
def collapseAux : List Char → Bool → List Char
  | [], _ => []
  | c :: cs, prev =>
    if c = ' ' then
      if prev then collapseAux cs true else ' ' :: collapseAux cs true
    else c :: collapseAux cs false

/-- Remove leading and trailing spaces (str.strip on line 69). -/
def stripSpaces (l : List Char) : List Char :=
  ((l.dropWhile (fun c => c == ' ')).reverse.dropWhile (fun c => c == ' ')).reverse

/-- Whole character pipeline of normalize_query_lex: fold, dash collapse,
class filter, whitespace collapse, strip. -/
def normChars (l : List Char) : List Char :=
  stripSpaces (collapseAux ((l.flatMap charFold).map (fun c => keepOrSpace (dashToHyphen c))) false)

/-- Translation of normalize_query_lex (api_server.py lines 62-70).  The
non-string input branch of the Python function is outside the typed model:
the argument here is always a string. -/
def normalize_query_lex (s : String) : String :=
  String.mk (normChars s.data)

/-- A character that every stage of the normalizer leaves unchanged: it is
in the kept class, the fold maps it to itself, and it is not dash-like. -/
def StableChar (c : Char) : Prop :=
  isKept c = true ∧ charFold c = [c] ∧ dashToHyphen c = c

/-- No two adjacent spaces. -/
def noTwoSpaces (a b : Char) : Prop := ¬(a = ' ' ∧ b = ' ')

/-- Round-half-to-even of a rational to an integer, the rounding mode of
the Python builtin round.  The comparison of the fractional part with one
half is phrased as a comparison of 2x with 2 floor(x) + 1. -/
def rqEven (x : ℚ) : ℤ :=
  if 2 * x < 2 * (⌊x⌋ : ℚ) + 1 then ⌊x⌋
  else if 2 * (⌊x⌋ : ℚ) + 1 < 2 * x then ⌊x⌋ + 1
  else if ⌊x⌋ % 2 = 0 then ⌊x⌋ else ⌊x⌋ + 1

/-- Model of round(x, d) of Python on exact values: half-to-even at the
d-th decimal. -/
def roundTo (d : ℕ) (x : ℚ) : ℚ :=
  ((rqEven (x * 10 ^ d) : ℚ)) / 10 ^ d

/-- One row of the enriched lookup table (lookup_df): the multivector
columns joined with the canonical name.  The column named section in the
source is called sect here because section is a reserved word in Lean.  A
row with no canonical match carries the empty string. -/
structure Row where
  policy_item_id : String
  text : String
  sect : String
  language : String
  canonical : String
deriving DecidableEq, Repr

/-- SearchHit dictionary built for one (query, candidate) pair in
search_ai (api_server.py lines 197-206). -/
structure SearchHit where
  policy_item_id : String
  canonical : String
  matched_text : String
  sect : String
  language : String
  semantic_score : ℚ
  lexical_score : ℚ
  confidence : ℚ
deriving DecidableEq, Repr

/-- Dot product of two vectors; equals cosine similarity on the
unit-normalized embeddings produced by the encoder. -/
def dot (u v : List ℚ) : ℚ :=
  (List.zipWith (· * ·) u v).sum

/-- Total order realizing a stable ascending argsort of sims: compare by
value, break ties by original index.  This matches the order np.argsort
computes in its insertion-sort regime (arrays below about sixteen
elements, covering every concrete scenario evaluated in this file); at
larger sizes np.argsort guarantees only the ascending values, which
IsAscArgsort below captures. -/
abbrev leAsc (sims : List ℚ) (i j : ℕ) : Prop :=
  sims.getD i 0 < sims.getD j 0 ∨ (sims.getD i 0 = sims.getD j 0 ∧ i ≤ j)

/-- Order written from the words of the spec for the no-index recall:
descending similarity, ties broken by original catalog order. -/
abbrev leDescOrig (sims : List ℚ) (i j : ℕ) : Prop :=
  sims.getD j 0 < sims.getD i 0 ∨ (sims.getD i 0 = sims.getD j 0 ∧ i ≤ j)

/-- Stable ascending argsort of the similarity list: the concrete
realization of np.argsort used in the executable model, exact in the
insertion-sort regime.  Theorems about tie order at arbitrary size
quantify over IsAscArgsort instead of this realization. -/
def argsortAsc (sims : List ℚ) : List ℕ :=
  List.insertionSort (leAsc sims) (List.range sims.length)

/-- The contract np.argsort honors at every input size: the returned index
list is a permutation of 0..len(sims)-1 along which the values are weakly
ascending.  Nothing about the relative order of equal values is
guaranteed, since the default sort is documented as unstable. -/
def IsAscArgsort (sims : List ℚ) (idx : List ℕ) : Prop :=
  idx.Perm (List.range sims.length) ∧
  idx.Pairwise (fun i j => sims.getD i 0 ≤ sims.getD j 0)

/-- Recall construction of api_server.py lines 174-175 over an arbitrary
index list returned by np.argsort: reverse, truncate to min(RECALL_K,
len(lookup_df)), and pair each index with its score.  recallNoIndex below
is its instance at the concrete realization argsortAsc. -/
def recallFromIdx (sims : List ℚ) (lookupLen : ℕ) (idx : List ℕ) : List (ℕ × ℚ) :=
  ((idx.reverse).take (min RECALL_K lookupLen)).map (fun i => (i, sims.getD i 0))

/-- Recall retrieval of the cosine-similarity branch of search_ai
(api_server.py lines 172-175): argsort ascending, reverse, truncate to
min(RECALL_K, len(lookup_df)), and pair each index with its score. -/
def recallNoIndex (sims : List ℚ) (lookupLen : ℕ) : List (ℕ × ℚ) :=
  (((argsortAsc sims).reverse).take (min RECALL_K lookupLen)).map
    (fun i => (i, sims.getD i 0))

/-- Modelled from the spec: recall retrieval as the spec describes it, the
top candidates by descending similarity with ties broken by original
catalog order (a stable sort).  Used only as the comparison point for the
refinement claim about recall ordering. -/
def recallSpec (sims : List ℚ) (lookupLen : ℕ) : List (ℕ × ℚ) :=
  ((List.insertionSort (leDescOrig sims) (List.range sims.length)).take
    (min RECALL_K lookupLen)).map (fun i => (i, sims.getD i 0))

/-- Cosine recall over stored embeddings: the similarity of the query
embedding with every stored embedding, then recallNoIndex. -/
def recallCosine (qEmb : List ℚ) (embs : List (List ℚ)) (lookupLen : ℕ) : List (ℕ × ℚ) :=
  recallNoIndex (embs.map (dot qEmb)) lookupLen

/-- Modelled from the spec: cosine recall with spec-side tie ordering. -/
def recallSpecCosine (qEmb : List ℚ) (embs : List (List ℚ)) (lookupLen : ℕ) : List (ℕ × ℚ) :=
  recallSpec (embs.map (dot qEmb)) lookupLen

/-- Construction of one SearchHit (api_server.py lines 181-206): lexical
scores from the fuzzy ratio of the normalized query against normalized
text and normalized canonical (the canonical ratio contributes 0 when the
canonical string is empty), section boost applied to the semantic score,
blend, and rounded reporting fields. -/
def mkHit (tsr : String → String → ℚ) (q_norm : String) (r : Row) (sem_score : ℚ) : SearchHit :=
  let lex1 := tsr q_norm (normalize_query_lex r.text) / 100
  let lex2 := if r.canonical = "" then 0 else tsr q_norm (normalize_query_lex r.canonical) / 100
  let lex := max lex1 lex2
  let boosted_sem := sem_score * section_boost r.sect
  let final_score := ALPHA_SEM * boosted_sem + (1 - ALPHA_SEM) * lex
  { policy_item_id := r.policy_item_id
    canonical := r.canonical
    matched_text := r.text
    sect := r.sect
    language := r.language
    semantic_score := roundTo 3 sem_score
    lexical_score := roundTo 3 lex
    confidence := roundTo 1 (final_score * 100) }

/-- Hit list over the recall candidates (the loop on lines 181-206): each
candidate index is looked up in the lookup table and turned into a hit. -/
def candidateHits (tsr : String → String → ℚ) (q_norm : String) (lookup : List Row)
    (cands : List (ℕ × ℚ)) : List SearchHit :=
  cands.filterMap (fun c => (lookup[c.1]?).map (fun r => mkHit tsr q_norm r c.2))

/-- One step of the aggregation loop (api_server.py lines 209-215) over
the insertion-ordered association list modelling the Python dict
best_by_entity: replace-or-append, guarded by the strict improvement test
and the confidence floor. -/
def aggStep (best : List (String × SearchHit)) (h : SearchHit) : List (String × SearchHit) :=
  match best.find? (fun p => p.1 == h.policy_item_id) with
  | none =>
    if MIN_CONFIDENCE * 100 ≤ h.confidence then best ++ [(h.policy_item_id, h)] else best
  | some p =>
    if p.2.confidence < h.confidence then
      if MIN_CONFIDENCE * 100 ≤ h.confidence then
        best.map (fun q => if q.1 == h.policy_item_id then (q.1, h) else q)
      else best
    else best

/-- Aggregation by entity: fold the loop over the hit list. -/
def aggregate (hits : List SearchHit) : List (String × SearchHit) :=
  hits.foldl aggStep []

/-- Sort key of the final ranking: descending confidence.  Realized as a
stable sort, exactly like sorted(..., reverse=True). -/
abbrev confGe (a b : SearchHit) : Prop := b.confidence ≤ a.confidence

/-- Scoring, aggregation and ranking of search_ai after recall
(api_server.py lines 177-219), over an arbitrary candidate list so that it
covers the FAISS branch and the cosine branch alike. -/
def search_core (tsr : String → String → ℚ) (lookup : List Row) (query : String)
    (top_k : ℕ) (cands : List (ℕ × ℚ)) : List SearchHit :=
  let q_norm := normalize_query_lex query
  let hits := candidateHits tsr q_norm lookup cands
  let best := aggregate hits
  (List.insertionSort confGe (best.map (fun p => p.2))).take top_k

/-- Translation of search_ai (api_server.py lines 157-219) in the
cosine-similarity branch, with the encoder and the fuzzy ratio as abstract
parameters.  Exact for a nonempty catalog; on zero stored embeddings the
external cosine kernel raises instead, which search_ai_checked below
models. -/
def search_ai (encode : String → List ℚ) (tsr : String → String → ℚ)
    (embs : List (List ℚ)) (lookup : List Row) (query : String) (top_k : ℕ) : List SearchHit :=
  search_core tsr lookup query top_k
    (recallNoIndex (embs.map (dot (encode query))) lookup.length)

/-- Input validation of the external cosine kernel (the
cosine_similarity call at api_server.py line 173): the stored embeddings
of a zero-row catalog form a one-dimensional empty array, which the
kernel rejects with a ValueError before computing anything (its documented
two-dimensional input check); none models that raise.  On a nonempty
matrix it returns the similarity of the query embedding against every
stored embedding, cosine of unit embeddings being their dot product. -/
def cosineSimsChecked (qEmb : List ℚ) (embs : List (List ℚ)) : Option (List ℚ) :=
  if embs.isEmpty then none else some (embs.map (dot qEmb))

/-- Translation of search_ai (api_server.py lines 157-219) in the
cosine-similarity branch including the error path: on a zero-row catalog
the external kernel raises (none here; the route handler at lines 274-275
surfaces the exception as a 500 response), otherwise the search proceeds
exactly as search_ai. -/
def search_ai_checked (encode : String → List ℚ) (tsr : String → String → ℚ)
    (embs : List (List ℚ)) (lookup : List Row) (query : String) (top_k : ℕ) :
    Option (List SearchHit) :=
  match cosineSimsChecked (encode query) embs with
  | none => none
  | some sims => some (search_core tsr lookup query top_k (recallNoIndex sims lookup.length))

/-- Modelled from the spec: the section boost exactly as the spec words
it, used as the comparison point for the blend-formula claim. -/
def boostSpec (sec : String) : ℚ :=
  if sec = "CANON_LAT" then 1.05
  else if sec = "CANON_EN" then 1.00
  else if sec = "SYN_LAT" then 0.95
  else if sec.startsWith "COMMON_" then 1.00
  else 1.00

/-- Modelled from the spec: the per-candidate lexical score as the spec
words it, the maximum of the two scaled fuzzy ratios with an empty
canonical contributing zero. -/
def lexSpec (tsr : String → String → ℚ) (q_norm : String) (r : Row) : ℚ :=
  max (tsr q_norm (normalize_query_lex r.text) / 100)
    (if r.canonical = "" then 0 else tsr q_norm (normalize_query_lex r.canonical) / 100)

/-- One row of the multivector source table (novel_foods_multivectors). -/
structure MvRow where
  policy_item_id : String
  text : String
  sect : String
  language : String
deriving DecidableEq, Repr

/-- One row of the canonical-name source table (novel_foods_cards). -/
structure CardRow where
  policy_item_id : String
  canonical : String
deriving DecidableEq, Repr

/-- Parsed content of the metadata JSON file; the fields are optional
because the code reads them with dict.get. -/
structure CacheMeta where
  row_count : Option ℕ
  model : Option String
deriving DecidableEq, Repr

/-- On-disk cache state seen by initialize_model.  For each artifact the
outer option is file existence and the inner option is read/parse success:
none means the file is absent, some none means reading it raises, and
some (some v) means it reads back as v. -/
structure CacheState where
  embFile : Option (Option (List (List ℚ)))
  lookupFile : Option (Option (List Row))
  metaFile : Option (Option CacheMeta)
  idxFile : Option (Option Unit)
deriving DecidableEq

/-- Result of initialization: the two global tables and whether they came
from the cache. -/
structure InitResult where
  embeddings : List (List ℚ)
  lookup_df : List Row
  fromCache : Bool
deriving DecidableEq

/-- Translation of cards[["policy_item_id", "canonical"]].drop_duplicates()
(api_server.py line 89): keep the first occurrence of every distinct
(policy_item_id, canonical) pair. -/
def dropDupCards (l : List CardRow) : List CardRow :=
  l.foldl (fun acc c =>
    if acc.any (fun d => d.policy_item_id == c.policy_item_id && d.canonical == c.canonical)
    then acc else acc ++ [c]) []

/-- Rows contributed by a single multivector row in the left merge: one
row per matching canonical row, or a single row with the empty canonical
when there is no match.  In pandas the unmatched canonical is NaN, which
str() at api_server.py line 184 renders as the literal text nan; none of
the verified statements inspects the canonical text of an unmatched row,
so the model uses the empty string and records the difference here. -/
def mergeRow (can : List CardRow) (m : MvRow) : List Row :=
  match can.filter (fun c => c.policy_item_id == m.policy_item_id) with
  | [] => [{ policy_item_id := m.policy_item_id, text := m.text, sect := m.sect,
             language := m.language, canonical := "" }]
  | ms => ms.map (fun c => { policy_item_id := m.policy_item_id, text := m.text,
                             sect := m.sect, language := m.language,
                             canonical := c.canonical })

/-- Translation of mv.merge(can_map, on="policy_item_id", how="left")
(api_server.py line 93): every multivector row is paired with every
matching canonical row, and with the empty canonical when there is no
match.  A pandas left merge duplicates a left row once per match on the
right. -/
def leftMerge (mv : List MvRow) (can : List CardRow) : List Row :=
  mv.flatMap (mergeRow can)

/-- Rebuild branch of initialize_model (api_server.py lines 135-154):
encode every multivector text and install the merged lookup table. -/
def rebuildResult (encode : String → List ℚ) (mv : List MvRow) (cards : List CardRow) : InitResult :=
  { embeddings := (mv.map (fun m => m.text)).map encode
    lookup_df := leftMerge mv (dropDupCards cards)
    fromCache := false }

/-- Translation of initialize_model (api_server.py lines 97-154).  The
cache is attempted only when the embeddings, lookup and metadata files all
exist; the metadata must parse and carry the current row count and model
name; the embeddings and lookup files must read back; when FAISS is
available and the index file exists, the index must read back too.  Any
failure on that path falls through to the full rebuild. -/
def initialize_model (encode : String → List ℚ) (faiss : Bool) (mv : List MvRow)
    (cards : List CardRow) (cs : CacheState) : InitResult :=
  let texts := mv.map (fun m => m.text)
  match cs.embFile, cs.lookupFile, cs.metaFile with
  | some embF, some lkpF, some metaF =>
    match metaF with
    | none => rebuildResult encode mv cards
    | some meta =>
      if meta.row_count = some texts.length ∧ meta.model = some MODEL_NAME then
        match embF with
        | none => rebuildResult encode mv cards
        | some e =>
          match lkpF with
          | none => rebuildResult encode mv cards
          | some l =>
            if faiss ∧ cs.idxFile.isSome then
              match cs.idxFile with
              | some (some _) => { embeddings := e, lookup_df := l, fromCache := true }
              | _ => rebuildResult encode mv cards
            else { embeddings := e, lookup_df := l, fromCache := true }
      else rebuildResult encode mv cards
  | _, _, _ => rebuildResult encode mv cards

/-- Constant fuzzy ratio of 100, the value token_set_ratio returns on
identical normalized strings; used for concrete scenarios. -/
def tsr100 : String → String → ℚ := fun _ _ => 100

/-- Constant fuzzy ratio of 40, used for a concrete scenario. -/
def tsr40 : String → String → ℚ := fun _ _ => 40

/-- One-dimensional unit encoder used for concrete scenarios. -/
def enc1 : String → List ℚ := fun _ => [1]

/-- Concrete catalog row with a Latin canonical section. -/
def row1 : Row :=
  { policy_item_id := "P1", text := "alpha", sect := "CANON_LAT",
    language := "la", canonical := "alpha" }

/-- The hit search_ai produces for row1 on the query alpha with an exact
embedding match. -/
def hitAlpha : SearchHit :=
  { policy_item_id := "P1", canonical := "alpha", matched_text := "alpha",
    sect := "CANON_LAT", language := "la", semantic_score := 1,
    lexical_score := 1, confidence := 1038 / 10 }

/-- Concrete multivector row for the alignment counterexample. -/
def mvX : MvRow :=
  { policy_item_id := "X", text := "tx", sect := "SEC", language := "en" }

/-- Concrete cards table carrying two distinct canonicals for the same
policy_item_id. -/
def cardsX : List CardRow :=
  [{ policy_item_id := "X", canonical := "A" }, { policy_item_id := "X", canonical := "B" }]

/-- Cache state with no artifact on disk. -/
def csEmpty : CacheState :=
  { embFile := none, lookupFile := none, metaFile := none, idxFile := none }

/-! ## Helper lemmas -/

/-- A successful association-list lookup comes from some pair of the list. -/
theorem lookup_mem_pair {α β : Type} [BEq α] (a : α) (l : List (α × β)) (b : β)
    (h : l.lookup a = some b) : ∃ k, (k, b) ∈ l := by
  induction l with
  | nil => simp [List.lookup] at h
  | cons p t ih =>
    rw [List.lookup] at h
    rcases hk : a == p.1 with _ | _
    · rw [hk] at h
      obtain ⟨k, hmem⟩ := ih h
      exact ⟨k, List.mem_cons_of_mem _ hmem⟩
    · rw [hk] at h
      obtain rfl : p.2 = b := by injection h
      exact ⟨p.1, by rw [Prod.mk.eta]; exact List.mem_cons_self _ _⟩

/-- When initialization does not come from the cache it produces exactly
the rebuild result. -/
theorem initialize_model_not_hit (encode : String → List ℚ) (faiss : Bool)
    (mv : List MvRow) (cards : List CardRow) (cs : CacheState)
    (h : (initialize_model encode faiss mv cards cs).fromCache = false) :
    initialize_model encode faiss mv cards cs = rebuildResult encode mv cards := by
  rcases cs with ⟨embF, lkpF, metaF, idxF⟩
  rcases embF with _ | embF
  · rfl
  rcases lkpF with _ | lkpF
  · rfl
  rcases metaF with _ | metaF
  · rfl
  rcases metaF with _ | meta
  · rfl
  by_cases hcond : meta.row_count = some mv.length ∧ meta.model = some MODEL_NAME
  · rcases embF with _ | e
    · simp [initialize_model, hcond]
    rcases lkpF with _ | l
    · simp [initialize_model, hcond]
    by_cases hf : faiss ∧ (Option.isSome idxF : Bool)
    · rcases idxF with _ | idx
      · simp at hf
      rcases idx with _ | u
      · simp [initialize_model, hcond, hf]
      · exfalso
        simp [initialize_model, hcond, hf] at h
    · exfalso
      simp [initialize_model, hcond, hf] at h
  · simp [initialize_model, hcond]

/-- Under a unique-key canonical table every filter by key has at most one
match. -/
theorem filter_pid_length_le_one (can : List CardRow) (pid : String)
    (h : (can.map (fun c => c.policy_item_id)).Nodup) :
    (can.filter (fun c => c.policy_item_id == pid)).length ≤ 1 := by
  induction can with
  | nil => simp
  | cons c t ih =>
    rw [List.map_cons, List.nodup_cons] at h
    by_cases hc : c.policy_item_id == pid
    · have hceq : c.policy_item_id = pid := by simpa using hc
      have hnone : t.filter (fun d => d.policy_item_id == pid) = [] := by
        rw [List.filter_eq_nil_iff]
        intro d hd
        simp only [beq_iff_eq]
        intro hdp
        apply h.1
        rw [hceq, ← hdp]
        exact List.mem_map_of_mem (fun x => x.policy_item_id) hd
      simp [List.filter_cons, hc, hnone]
    · simpa [List.filter_cons, hc] using ih h.2

/-- Under a unique-key canonical table each multivector row contributes
exactly one merged row. -/
theorem mergeRow_length (can : List CardRow) (m : MvRow)
    (h : (can.map (fun c => c.policy_item_id)).Nodup) :
    (mergeRow can m).length = 1 := by
  have hle := filter_pid_length_le_one can m.policy_item_id h
  unfold mergeRow
  rcases hms : can.filter (fun c => c.policy_item_id == m.policy_item_id) with _ | ⟨c, rest⟩
  · simp [hms]
  · rw [hms] at hle
    rcases rest with _ | ⟨d, rest2⟩
    · simp [hms]
    · simp at hle

/-- Under a unique-key canonical table the left merge preserves the row
count. -/
theorem leftMerge_length (mv : List MvRow) (can : List CardRow)
    (h : (can.map (fun c => c.policy_item_id)).Nodup) :
    (leftMerge mv can).length = mv.length := by
  induction mv with
  | nil => rfl
  | cons m t ih =>
    rw [leftMerge, List.flatMap_cons, List.length_append]
    rw [leftMerge] at ih
    rw [ih, mergeRow_length can m h]
    simp only [List.length_cons]
    omega

/-! ## Claim theorems -/

/-- C9 counterexample: searching a catalog with zero rows does not return
the empty list; the external cosine kernel rejects the zero-row embedding
matrix and the search raises (none), shown here on the concrete query
anything with top_k 10. -/
theorem search_ai_checked_empty_cex :
    search_ai_checked enc1 tsr100 [] [] "anything" 10 = none := rfl

/-- C9 amended: searching a catalog with zero rows raises instead of
returning a result list, for every encoder, fuzzy scorer, query and
top_k (the route handler surfaces the exception as a 500 response; with
FAISS available, initialization itself already crashes indexing the
zero-row embedding array); on any nonempty catalog no exception occurs
and the checked search agrees exactly with search_ai. -/
theorem search_ai_zero_catalog_error :
    (∀ (encode : String → List ℚ) (tsr : String → String → ℚ)
      (query : String) (top_k : ℕ),
      search_ai_checked encode tsr [] [] query top_k = none) ∧
    (∀ (encode : String → List ℚ) (tsr : String → String → ℚ)
      (e : List ℚ) (rest : List (List ℚ)) (lookup : List Row)
      (query : String) (top_k : ℕ),
      search_ai_checked encode tsr (e :: rest) lookup query top_k =
        some (search_ai encode tsr (e :: rest) lookup query top_k)) := by
  constructor
  · intro encode tsr query top_k
    rfl
  · intro encode tsr e rest lookup query top_k
    rfl

/-- C4 counterexample: a catalog whose cards table carries two distinct
canonical names for one policy_item_id yields one stored embedding but two
lookup rows after a successful (rebuild) initialization, so the claimed
alignment fails for this catalog. -/
theorem initialize_model_alignment_cex :
    (initialize_model enc1 false [mvX] cardsX csEmpty).embeddings.length = 1 ∧
    (initialize_model enc1 false [mvX] cardsX csEmpty).lookup_df.length = 2 := by
  constructor <;> rfl

/-- C4 amended: after a rebuild initialization (the cache was not used),
and provided the deduplicated cards table has at most one canonical row
per policy_item_id, the number of stored embedding vectors equals the
number of lookup rows.  On a cache hit the code installs the cached
artifacts without any alignment check, and the pandas left merge
duplicates rows when a policy_item_id has several distinct canonicals, so
neither restriction can be dropped. -/
theorem initialize_model_rebuild_alignment (encode : String → List ℚ) (faiss : Bool)
    (mv : List MvRow) (cards : List CardRow) (cs : CacheState)
    (huniq : ((dropDupCards cards).map (fun c => c.policy_item_id)).Nodup)
    (hmiss : (initialize_model encode faiss mv cards cs).fromCache = false) :
    (initialize_model encode faiss mv cards cs).embeddings.length =
      (initialize_model encode faiss mv cards cs).lookup_df.length := by
  rw [initialize_model_not_hit encode faiss mv cards cs hmiss]
  show ((mv.map (fun m => m.text)).map encode).length = (leftMerge mv (dropDupCards cards)).length
  rw [List.length_map, List.length_map, leftMerge_length mv (dropDupCards cards) huniq]

/-- C4 witness: the amended theorem applied to a concrete one-row catalog
with an empty cards table and an empty cache. -/
theorem initialize_model_rebuild_alignment_witness :
    (initialize_model enc1 false [mvX] [] csEmpty).embeddings.length =
      (initialize_model enc1 false [mvX] [] csEmpty).lookup_df.length :=
  initialize_model_rebuild_alignment enc1 false [mvX] [] csEmpty (by decide) (by decide)

/-- C8: initialization uses the cache if and only if the three mandatory
artifacts exist and read back, the stored row count equals the current
catalog size, the stored model name equals the configured model, and, when
the index component is available, a present index file also reads back;
and whenever the cache is not used the result is exactly the full rebuild,
never a fatal error. -/
theorem initialize_model_cache_hit_iff (encode : String → List ℚ) (faiss : Bool)
    (mv : List MvRow) (cards : List CardRow) (cs : CacheState) :
    ((initialize_model encode faiss mv cards cs).fromCache = true ↔
      ∃ e l m, cs.embFile = some (some e) ∧ cs.lookupFile = some (some l) ∧
        cs.metaFile = some (some m) ∧ m.row_count = some (mv.map (fun r => r.text)).length ∧
        m.model = some MODEL_NAME ∧ (faiss = true → cs.idxFile ≠ some none)) ∧
    ((initialize_model encode faiss mv cards cs).fromCache = false →
      initialize_model encode faiss mv cards cs = rebuildResult encode mv cards) := by
  refine ⟨?_, initialize_model_not_hit encode faiss mv cards cs⟩
  rcases cs with ⟨embF, lkpF, metaF, idxF⟩
  constructor
  · intro h
    rcases embF with _ | embF
    · exact absurd h (by simp [initialize_model, rebuildResult])
    rcases lkpF with _ | lkpF
    · exact absurd h (by simp [initialize_model, rebuildResult])
    rcases metaF with _ | metaF
    · exact absurd h (by simp [initialize_model, rebuildResult])
    rcases metaF with _ | meta
    · exact absurd h (by simp [initialize_model, rebuildResult])
    by_cases hcond : meta.row_count = some mv.length ∧ meta.model = some MODEL_NAME
    · rcases embF with _ | e
      · exact absurd h (by simp [initialize_model, hcond, rebuildResult])
      rcases lkpF with _ | l
      · exact absurd h (by simp [initialize_model, hcond, rebuildResult])
      refine ⟨e, l, meta, rfl, rfl, rfl, by simpa using hcond.1, hcond.2, ?_⟩
      intro hfaiss hidx
      have hidx2 : idxF = some none := hidx
      subst hidx2
      simp [initialize_model, hcond, hfaiss, rebuildResult] at h
    · exact absurd h (by simp [initialize_model, hcond, rebuildResult])
  · rintro ⟨e, l, m, he, hl, hm, hrc, hmodel, hidx⟩
    obtain rfl : embF = some (some e) := he
    obtain rfl : lkpF = some (some l) := hl
    obtain rfl : metaF = some (some m) := hm
    have hrc2 : m.row_count = some mv.length := by simpa using hrc
    by_cases hf : faiss
    · rcases idxF with _ | idx
      · simp [initialize_model, hrc2, hmodel, hf]
      rcases idx with _ | u
      · exact absurd rfl (hidx hf)
      · simp [initialize_model, hrc2, hmodel, hf]
    · simp [initialize_model, hrc2, hmodel, hf]

/-- C8 witness: with an empty cache directory the second part of the
theorem yields the concrete rebuild result. -/
theorem initialize_model_cache_hit_iff_witness :
    initialize_model enc1 false [mvX] cardsX csEmpty = rebuildResult enc1 [mvX] cardsX :=
  (initialize_model_cache_hit_iff enc1 false [mvX] cardsX csEmpty).2 (by decide)

/-- Half-unit bounds of round-half-to-even. -/
theorem rqEven_half (x : ℚ) :
    x - 1 / 2 ≤ (rqEven x : ℚ) ∧ (rqEven x : ℚ) ≤ x + 1 / 2 := by
  have h0 : (⌊x⌋ : ℚ) ≤ x := Int.floor_le x
  have h1 : x < (⌊x⌋ : ℚ) + 1 := Int.lt_floor_add_one x
  unfold rqEven
  split_ifs with a b c
  · constructor <;> linarith
  · constructor <;> push_cast <;> linarith
  · constructor <;> linarith
  · constructor <;> push_cast <;> linarith

/-- Rounding at an integer upper bound stays at or below it. -/
theorem rqEven_le_int (x : ℚ) (z : ℤ) (h : x ≤ (z : ℚ)) : rqEven x ≤ z := by
  have hf : ⌊x⌋ ≤ z := by
    have := Int.floor_mono h
    simpa using this
  have h0 : (⌊x⌋ : ℚ) ≤ x := Int.floor_le x
  unfold rqEven
  split_ifs with a b c
  · exact hf
  · have hlt : (⌊x⌋ : ℚ) < (z : ℚ) := by linarith
    have : ⌊x⌋ < z := by exact_mod_cast hlt
    omega
  · exact hf
  · have hlt : (⌊x⌋ : ℚ) < (z : ℚ) := by linarith
    have : ⌊x⌋ < z := by exact_mod_cast hlt
    omega

/-- Rounding at an integer lower bound stays at or above it. -/
theorem rqEven_ge_int (x : ℚ) (z : ℤ) (h : (z : ℚ) ≤ x) : z ≤ rqEven x := by
  have hf : z ≤ ⌊x⌋ := Int.le_floor.mpr h
  unfold rqEven
  split_ifs with a b c <;> omega

/-- Half-unit bounds of rounding to d decimals. -/
theorem roundTo_half (d : ℕ) (x : ℚ) :
    x - 1 / (2 * 10 ^ d) ≤ roundTo d x ∧ roundTo d x ≤ x + 1 / (2 * 10 ^ d) := by
  have h := rqEven_half (x * 10 ^ d)
  have hp : (0 : ℚ) < 10 ^ d := by positivity
  have hexp1 : (x - 1 / (2 * 10 ^ d)) * 10 ^ d = x * 10 ^ d - 1 / 2 := by
    field_simp
    ring
  have hexp2 : (x + 1 / (2 * 10 ^ d)) * 10 ^ d = x * 10 ^ d + 1 / 2 := by
    field_simp
    ring
  unfold roundTo
  constructor
  · rw [le_div_iff₀ hp, hexp1]
    exact h.1
  · rw [div_le_iff₀ hp, hexp2]
    exact h.2

/-- Rounding to d decimals respects an integer upper bound. -/
theorem roundTo_le_int (d : ℕ) (x : ℚ) (z : ℤ) (h : x ≤ (z : ℚ)) : roundTo d x ≤ (z : ℚ) := by
  have hp : (0 : ℚ) < 10 ^ d := by positivity
  have hz : rqEven (x * 10 ^ d) ≤ z * 10 ^ d := by
    apply rqEven_le_int
    push_cast
    exact mul_le_mul_of_nonneg_right h (le_of_lt hp)
  unfold roundTo
  rw [div_le_iff₀ hp]
  calc (rqEven (x * 10 ^ d) : ℚ) ≤ ((z * 10 ^ d : ℤ) : ℚ) := by exact_mod_cast hz
  _ = (z : ℚ) * 10 ^ d := by push_cast; ring

/-- Rounding to d decimals respects an integer lower bound. -/
theorem roundTo_ge_int (d : ℕ) (x : ℚ) (z : ℤ) (h : (z : ℚ) ≤ x) : (z : ℚ) ≤ roundTo d x := by
  have hp : (0 : ℚ) < 10 ^ d := by positivity
  have hz : z * 10 ^ d ≤ rqEven (x * 10 ^ d) := by
    apply rqEven_ge_int
    push_cast
    exact mul_le_mul_of_nonneg_right h (le_of_lt hp)
  unfold roundTo
  rw [le_div_iff₀ hp]
  calc (z : ℚ) * 10 ^ d = ((z * 10 ^ d : ℤ) : ℚ) := by push_cast; ring
  _ ≤ (rqEven (x * 10 ^ d) : ℚ) := by exact_mod_cast hz

/-- The section boost takes one of exactly three values. -/
theorem section_boost_cases (sec : String) :
    section_boost sec = 1.05 ∨ section_boost sec = 1 ∨ section_boost sec = 0.95 := by
  unfold section_boost
  rcases hl : SECTION_BOOST.lookup sec with _ | b
  · split_ifs <;> norm_num
  · obtain ⟨k, hmem⟩ := lookup_mem_pair sec SECTION_BOOST b hl
    simp only [SECTION_BOOST, List.mem_cons, List.not_mem_nil, or_false, Prod.mk.injEq] at hmem
    rcases hmem with ⟨_, rfl⟩ | ⟨_, rfl⟩ | ⟨_, rfl⟩ <;> norm_num

/-- The coded section boost agrees with the boost table written in the
spec. -/
theorem section_boost_eq_boostSpec (sec : String) : section_boost sec = boostSpec sec := by
  by_cases h1 : sec = "CANON_LAT"
  · subst h1; rfl
  by_cases h2 : sec = "CANON_EN"
  · subst h2; rfl
  by_cases h3 : sec = "SYN_LAT"
  · subst h3; rfl
  simp only [section_boost, boostSpec, SECTION_BOOST, List.lookup, h1, h2, h3, if_false]
  rw [show (sec == "CANON_LAT") = false by simpa using h1]
  rw [show (sec == "CANON_EN") = false by simpa using h2]
  rw [show (sec == "SYN_LAT") = false by simpa using h3]

/-- Value of the boost on the Latin canonical section. -/
theorem section_boost_CANON_LAT : section_boost "CANON_LAT" = 1.05 := rfl

/-- Recall evaluation of the concrete one-row scenario. -/
theorem recall_alpha_eval :
    recallNoIndex ([[(1 : ℚ)]].map (dot (enc1 "alpha"))) 1 = [(0, 1)] := by
  norm_num [recallNoIndex, argsortAsc, dot, enc1, RECALL_K,
    List.insertionSort, List.orderedInsert, List.range_succ]

/-- Candidate-hit evaluation of the concrete one-row scenario. -/
theorem candidate_alpha_eval :
    candidateHits tsr100 (normalize_query_lex "alpha") [row1] [(0, 1)] = [hitAlpha] := by
  have h2 : mkHit tsr100 (normalize_query_lex "alpha") row1 1 = hitAlpha := by
    norm_num [mkHit, tsr100, row1, hitAlpha, roundTo, rqEven, ALPHA_SEM,
      section_boost_CANON_LAT, (show ¬(("alpha" : String) = "") from by decide)]
  simp [candidateHits, h2]

/-- Full evaluation of the search pipeline on a concrete one-row catalog
with an exact embedding match on a Latin canonical row. -/
theorem search_alpha_eval :
    search_ai enc1 tsr100 [[1]] [row1] "alpha" 10 = [hitAlpha] := by
  have h4 : aggregate [hitAlpha] = [("P1", hitAlpha)] := by
    norm_num [aggregate, aggStep, hitAlpha, MIN_CONFIDENCE]
  show search_core tsr100 [row1] "alpha" 10 (recallNoIndex ([[(1 : ℚ)]].map (dot (enc1 "alpha"))) 1)
    = [hitAlpha]
  rw [recall_alpha_eval]
  show (List.insertionSort confGe
    ((aggregate (candidateHits tsr100 (normalize_query_lex "alpha") [row1] [(0, 1)])).map
      (fun p => p.2))).take 10 = [hitAlpha]
  rw [candidate_alpha_eval, h4]
  simp [List.insertionSort, List.orderedInsert]

/-- C5: for every candidate the confidence reported in the hit equals the
blend ALPHA_SEM times boosted semantic plus (1 - ALPHA_SEM) times lexical,
scaled to a percentage and rounded to one decimal, with ALPHA_SEM fixed at
0.75, the boost given by the spec table, and the two sub-scores reported
rounded to three decimals. -/
theorem mkHit_blend_formula (tsr : String → String → ℚ) (q_norm : String) (r : Row) (sem : ℚ) :
    (mkHit tsr q_norm r sem).confidence =
      roundTo 1 ((ALPHA_SEM * (boostSpec r.sect * sem) +
        (1 - ALPHA_SEM) * lexSpec tsr q_norm r) * 100) ∧
    (mkHit tsr q_norm r sem).semantic_score = roundTo 3 sem ∧
    (mkHit tsr q_norm r sem).lexical_score = roundTo 3 (lexSpec tsr q_norm r) ∧
    ALPHA_SEM = 0.75 ∧ (∀ sec : String, section_boost sec = boostSpec sec) := by
  refine ⟨?_, rfl, rfl, rfl, section_boost_eq_boostSpec⟩
  show roundTo 1 ((ALPHA_SEM * (sem * section_boost r.sect) +
    (1 - ALPHA_SEM) * lexSpec tsr q_norm r) * 100) = _
  rw [section_boost_eq_boostSpec r.sect, mul_comm sem (boostSpec r.sect)]

/-- C10: the reported semantic score of every hit is the raw recall
similarity rounded to three decimals, with no section boost applied; the
boost enters only the confidence, so on a concrete CANON_LAT candidate the
confidence differs (here by exactly 3 points) from the value reconstructed
as 100 times (0.75 semantic + 0.25 lexical) over the reported scores. -/
theorem semantic_score_unboosted :
    (∀ (tsr : String → String → ℚ) (q_norm : String) (r : Row) (sem : ℚ),
      (mkHit tsr q_norm r sem).semantic_score = roundTo 3 sem) ∧
    (mkHit tsr40 "q" row1 (4 / 5)).sect = "CANON_LAT" ∧
    (mkHit tsr40 "q" row1 (4 / 5)).confidence =
      100 * (0.75 * (mkHit tsr40 "q" row1 (4 / 5)).semantic_score +
        0.25 * (mkHit tsr40 "q" row1 (4 / 5)).lexical_score) + 3 := by
  refine ⟨fun _ _ _ _ => rfl, rfl, ?_⟩
  norm_num [mkHit, tsr40, row1, roundTo, rqEven, ALPHA_SEM,
    section_boost_CANON_LAT, (show ¬(("alpha" : String) = "") from by decide)]

/-- C6 counterexample: on an exact CANON_LAT match the produced (and even
returned) hit has confidence 103.8, outside the claimed range 0..100, so
the claimed SearchHit bounds fail. -/
theorem searchHit_bounds_cex :
    hitAlpha ∈ search_ai enc1 tsr100 [[1]] [row1] "alpha" 10 ∧
    100 < hitAlpha.confidence := by
  constructor
  · rw [search_alpha_eval]
    exact List.mem_singleton.mpr rfl
  · norm_num [hitAlpha]

/-- Every entry of one aggregation step either was already in the map or
carries the current hit under its policy_item_id, with the confidence
floor satisfied. -/
theorem aggStep_cases (m : List (String × SearchHit)) (h : SearchHit) (p : String × SearchHit)
    (hp : p ∈ aggStep m h) :
    p ∈ m ∨ (p.1 = h.policy_item_id ∧ p.2 = h ∧ MIN_CONFIDENCE * 100 ≤ h.confidence) := by
  unfold aggStep at hp
  rcases hfind : m.find? (fun q => q.1 == h.policy_item_id) with _ | q
  · rw [hfind] at hp
    replace hp : p ∈ (if MIN_CONFIDENCE * 100 ≤ h.confidence
        then m ++ [(h.policy_item_id, h)] else m) := hp
    split_ifs at hp with hc
    · rcases List.mem_append.mp hp with hm | hs
      · exact Or.inl hm
      · obtain rfl := List.mem_singleton.mp hs
        exact Or.inr ⟨rfl, rfl, hc⟩
    · exact Or.inl hp
  · rw [hfind] at hp
    replace hp : p ∈ (if q.2.confidence < h.confidence then
        (if MIN_CONFIDENCE * 100 ≤ h.confidence then
          m.map (fun q2 => if q2.1 == h.policy_item_id then (q2.1, h) else q2)
        else m) else m) := hp
    split_ifs at hp with hlt hc
    · obtain ⟨q2, hq2, hpe⟩ := List.mem_map.mp hp
      by_cases hb : q2.1 == h.policy_item_id
      · rw [if_pos hb] at hpe
        subst hpe
        exact Or.inr ⟨by simpa using hb, rfl, hc⟩
      · rw [if_neg hb] at hpe
        subst hpe
        exact Or.inl hq2
    · exact Or.inl hp
    · exact Or.inl hp

/-- One aggregation step either leaves the key list unchanged or appends
the new policy_item_id, and it appends only when the key was absent. -/
theorem aggStep_keys (m : List (String × SearchHit)) (h : SearchHit) :
    (aggStep m h).map Prod.fst = m.map Prod.fst ∨
    ((aggStep m h).map Prod.fst = m.map Prod.fst ++ [h.policy_item_id] ∧
      ∀ p ∈ m, p.1 ≠ h.policy_item_id) := by
  rcases hfind : m.find? (fun q => q.1 == h.policy_item_id) with _ | q
  · have hnone := List.find?_eq_none.mp hfind
    by_cases hc : MIN_CONFIDENCE * 100 ≤ h.confidence
    · right
      constructor
      · simp only [aggStep, hfind]
        rw [if_pos hc]
        simp
      · intro p hp
        simpa using hnone p hp
    · left
      simp only [aggStep, hfind]
      rw [if_neg hc]
  · by_cases hlt : q.2.confidence < h.confidence
    · by_cases hc : MIN_CONFIDENCE * 100 ≤ h.confidence
      · left
        simp only [aggStep, hfind]
        rw [if_pos hlt, if_pos hc, List.map_map]
        apply List.map_congr_left
        intro q2 hq2
        simp only [Function.comp_apply]
        split <;> rfl
      · left
        simp only [aggStep, hfind]
        rw [if_pos hlt, if_neg hc]
    · left
      simp only [aggStep, hfind]
      rw [if_neg hlt]

/-- Everything stored by the aggregation loop has confidence at least 50. -/
theorem aggregate_foldl_conf (hs : List SearchHit) (m : List (String × SearchHit))
    (hm : ∀ p ∈ m, (50 : ℚ) ≤ p.2.confidence) :
    ∀ p ∈ hs.foldl aggStep m, (50 : ℚ) ≤ p.2.confidence := by
  induction hs generalizing m with
  | nil => simpa using hm
  | cons h t ih =>
    rw [List.foldl_cons]
    apply ih
    intro p hp
    rcases aggStep_cases m h p hp with hin | ⟨_, hp2, hc⟩
    · exact hm p hin
    · rw [hp2]
      have h50 : MIN_CONFIDENCE * 100 = 50 := by norm_num [MIN_CONFIDENCE]
      linarith

/-- Every value stored by the aggregation loop comes from the hit list or
from the initial map. -/
theorem aggregate_foldl_sub (hs : List SearchHit) (m : List (String × SearchHit))
    (S : SearchHit → Prop) (hm : ∀ p ∈ m, S p.2) (hh : ∀ h2 ∈ hs, S h2) :
    ∀ p ∈ hs.foldl aggStep m, S p.2 := by
  induction hs generalizing m with
  | nil => simpa using hm
  | cons h t ih =>
    rw [List.foldl_cons]
    apply ih
    · intro p hp
      rcases aggStep_cases m h p hp with hin | ⟨_, hp2, _⟩
      · exact hm p hin
      · rw [hp2]
        exact hh h (List.mem_cons_self _ _)
    · intro h2 hh2
      exact hh h2 (List.mem_cons_of_mem _ hh2)

/-- The aggregation loop keeps its keys without duplicates and stores each
hit under its own policy_item_id. -/
theorem aggregate_foldl_keys (hs : List SearchHit) (m : List (String × SearchHit))
    (h1 : (m.map Prod.fst).Nodup) (h2 : ∀ p ∈ m, p.2.policy_item_id = p.1) :
    ((hs.foldl aggStep m).map Prod.fst).Nodup ∧
      ∀ p ∈ hs.foldl aggStep m, p.2.policy_item_id = p.1 := by
  induction hs generalizing m with
  | nil => exact ⟨h1, h2⟩
  | cons h t ih =>
    rw [List.foldl_cons]
    apply ih
    · rcases aggStep_keys m h with heq | ⟨heq, hnotin⟩
      · rw [heq]; exact h1
      · rw [heq, List.nodup_append]
        refine ⟨h1, List.nodup_singleton _, ?_⟩
        intro a ha hb
        obtain ⟨p, hp, rfl⟩ := List.mem_map.mp ha
        rw [List.mem_singleton] at hb
        exact hnotin p hp hb
    · intro p hp
      rcases aggStep_cases m h p hp with hin | ⟨hp1, hp2, _⟩
      · exact h2 p hin
      · rw [hp2, hp1]

/-- No two entries of the final list of search_core share a
policy_item_id. -/
theorem search_core_pairwise (tsr : String → String → ℚ) (lookup : List Row) (query : String)
    (top_k : ℕ) (cands : List (ℕ × ℚ)) :
    (search_core tsr lookup query top_k cands).Pairwise
      (fun a b => a.policy_item_id ≠ b.policy_item_id) := by
  obtain ⟨hnd, hpid⟩ := aggregate_foldl_keys
    (candidateHits tsr (normalize_query_lex query) lookup cands) [] (by simp) (by simp)
  have hvals : ((aggregate (candidateHits tsr (normalize_query_lex query) lookup cands)).map
      (fun p => p.2)).Pairwise (fun a b => a.policy_item_id ≠ b.policy_item_id) := by
    rw [List.pairwise_map]
    have hkeys : (aggregate (candidateHits tsr (normalize_query_lex query) lookup cands)).Pairwise
        (fun p q => p.1 ≠ q.1) := by
      have h3 := hnd
      rw [List.Nodup, List.pairwise_map] at h3
      exact h3
    refine List.Pairwise.imp_of_mem ?_ hkeys
    intro p q hpm hqm hne
    rw [hpid p hpm, hpid q hqm]
    exact hne
  have hsorted : (List.insertionSort confGe
      ((aggregate (candidateHits tsr (normalize_query_lex query) lookup cands)).map
        (fun p => p.2))).Pairwise (fun a b => a.policy_item_id ≠ b.policy_item_id) := by
    refine (List.Perm.pairwise_iff (fun hxy => hxy.symm)
      (List.perm_insertionSort confGe _)).mpr hvals
  exact List.Pairwise.sublist (List.take_sublist _ _) hsorted

/-- Every hit in the final list of search_core clears the confidence
floor. -/
theorem search_core_floor (tsr : String → String → ℚ) (lookup : List Row) (query : String)
    (top_k : ℕ) (cands : List (ℕ × ℚ)) :
    ∀ h1 ∈ search_core tsr lookup query top_k cands, (50 : ℚ) ≤ h1.confidence := by
  intro h1 hmem
  have h2 : h1 ∈ List.insertionSort confGe
      ((aggregate (candidateHits tsr (normalize_query_lex query) lookup cands)).map
        (fun p => p.2)) :=
    List.Sublist.mem hmem (List.take_sublist _ _)
  have h3 : h1 ∈ (aggregate (candidateHits tsr (normalize_query_lex query) lookup cands)).map
      (fun p => p.2) :=
    (List.Perm.mem_iff (List.perm_insertionSort confGe _)).mp h2
  obtain ⟨p, hp, rfl⟩ := List.mem_map.mp h3
  exact aggregate_foldl_conf _ [] (by simp) p hp

/-- C1: no two SearchHits in a result list of search_ai share a
policy_item_id, for every encoder, fuzzy scorer, stored embeddings, lookup
table, query and top_k. -/
theorem search_ai_no_duplicate_policy_item_id (encode : String → List ℚ)
    (tsr : String → String → ℚ) (embs : List (List ℚ)) (lookup : List Row)
    (query : String) (top_k : ℕ) :
    (search_ai encode tsr embs lookup query top_k).Pairwise
      (fun a b => a.policy_item_id ≠ b.policy_item_id) :=
  search_core_pairwise tsr lookup query top_k
    (recallNoIndex (embs.map (dot (encode query))) lookup.length)

/-- C2: every SearchHit returned by search_ai has confidence at least
50.0; an entity whose best hit falls below the floor never reaches the
result list because the aggregation loop only ever stores hits at or above
the floor. -/
theorem search_ai_confidence_floor (encode : String → List ℚ)
    (tsr : String → String → ℚ) (embs : List (List ℚ)) (lookup : List Row)
    (query : String) (top_k : ℕ) :
    ∀ h1 ∈ search_ai encode tsr embs lookup query top_k, (50 : ℚ) ≤ h1.confidence :=
  search_core_floor tsr lookup query top_k
    (recallNoIndex (embs.map (dot (encode query))) lookup.length)

/-- C2 witness: on the concrete one-row scenario the returned hit has
confidence at least 50. -/
theorem search_ai_confidence_floor_witness : (50 : ℚ) ≤ hitAlpha.confidence :=
  search_ai_confidence_floor enc1 tsr100 [[1]] [row1] "alpha" 10 hitAlpha
    (by rw [search_alpha_eval]; exact List.mem_singleton.mpr rfl)

/-- Every similarity drawn from the stored-embedding dot products lies in
[-1, 1] when each individual dot product does (out-of-range indices read
the default 0). -/
theorem sims_getD_bounds (qe : List ℚ) (embs : List (List ℚ))
    (hsem : ∀ e ∈ embs, -1 ≤ dot qe e ∧ dot qe e ≤ 1) (i : ℕ) :
    -1 ≤ (embs.map (dot qe)).getD i 0 ∧ (embs.map (dot qe)).getD i 0 ≤ 1 := by
  rw [List.getD_eq_getElem?_getD]
  rcases hv : (embs.map (dot qe))[i]? with _ | v
  · norm_num
  · obtain ⟨hi, hvv⟩ := List.getElem?_eq_some_iff.mp hv
    simp only [Option.getD_some]
    subst hvv
    rw [List.getElem_map]
    exact hsem _ (List.getElem_mem _)

/-- Field bounds of a single constructed hit: under the documented ranges
of the fuzzy ratio and of the raw similarity, the lexical score lies in
[0, 1], the semantic score in [-1, 1], and the confidence in
[-78.8, 103.8]. -/
theorem mkHit_bounds (tsr : String → String → ℚ) (q_norm : String) (r : Row) (sem : ℚ)
    (htsr : ∀ a b, 0 ≤ tsr a b ∧ tsr a b ≤ 100)
    (h1 : -1 ≤ sem) (h2 : sem ≤ 1) :
    (0 ≤ (mkHit tsr q_norm r sem).lexical_score ∧ (mkHit tsr q_norm r sem).lexical_score ≤ 1) ∧
    (-1 ≤ (mkHit tsr q_norm r sem).semantic_score ∧
      (mkHit tsr q_norm r sem).semantic_score ≤ 1) ∧
    (-(788 / 10) ≤ (mkHit tsr q_norm r sem).confidence ∧
      (mkHit tsr q_norm r sem).confidence ≤ 1038 / 10) := by
  have hlex0 : 0 ≤ lexSpec tsr q_norm r := by
    unfold lexSpec
    apply le_max_of_le_left
    have := (htsr q_norm (normalize_query_lex r.text)).1
    positivity
  have hlex1 : lexSpec tsr q_norm r ≤ 1 := by
    unfold lexSpec
    apply max_le
    · rw [div_le_one (by norm_num : (0:ℚ) < 100)]
      exact (htsr q_norm (normalize_query_lex r.text)).2
    · split_ifs
      · norm_num
      · rw [div_le_one (by norm_num : (0:ℚ) < 100)]
        exact (htsr q_norm (normalize_query_lex r.canonical)).2
  have hA : ALPHA_SEM = 3 / 4 := by norm_num [ALPHA_SEM]
  have hfb : -(1575 / 20) ≤ (ALPHA_SEM * (sem * section_boost r.sect) +
      (1 - ALPHA_SEM) * lexSpec tsr q_norm r) * 100 ∧
      (ALPHA_SEM * (sem * section_boost r.sect) +
        (1 - ALPHA_SEM) * lexSpec tsr q_norm r) * 100 ≤ 2075 / 20 := by
    rw [hA]
    rcases section_boost_cases r.sect with hb | hb | hb <;> rw [hb] <;>
      constructor <;> nlinarith [hlex0, hlex1, h1, h2]
  refine ⟨⟨?_, ?_⟩, ⟨?_, ?_⟩, ?_, ?_⟩
  · show (0 : ℚ) ≤ roundTo 3 (lexSpec tsr q_norm r)
    have := roundTo_ge_int 3 (lexSpec tsr q_norm r) 0 (by exact_mod_cast hlex0)
    simpa using this
  · show roundTo 3 (lexSpec tsr q_norm r) ≤ 1
    have := roundTo_le_int 3 (lexSpec tsr q_norm r) 1 (by exact_mod_cast hlex1)
    simpa using this
  · show (-1 : ℚ) ≤ roundTo 3 sem
    have := roundTo_ge_int 3 sem (-1) (by exact_mod_cast h1)
    simpa using this
  · show roundTo 3 sem ≤ 1
    have := roundTo_le_int 3 sem 1 (by exact_mod_cast h2)
    simpa using this
  · show -(788 / 10 : ℚ) ≤ roundTo 1 ((ALPHA_SEM * (sem * section_boost r.sect) +
      (1 - ALPHA_SEM) * lexSpec tsr q_norm r) * 100)
    have hh := (roundTo_half 1 ((ALPHA_SEM * (sem * section_boost r.sect) +
      (1 - ALPHA_SEM) * lexSpec tsr q_norm r) * 100)).1
    have h20 : (1 : ℚ) / (2 * 10 ^ 1) = 1 / 20 := by norm_num
    rw [h20] at hh
    linarith [hfb.1]
  · show roundTo 1 ((ALPHA_SEM * (sem * section_boost r.sect) +
      (1 - ALPHA_SEM) * lexSpec tsr q_norm r) * 100) ≤ 1038 / 10
    have hh := (roundTo_half 1 ((ALPHA_SEM * (sem * section_boost r.sect) +
      (1 - ALPHA_SEM) * lexSpec tsr q_norm r) * 100)).2
    have h20 : (1 : ℚ) / (2 * 10 ^ 1) = 1 / 20 := by norm_num
    rw [h20] at hh
    linarith [hfb.2]

/-- C6 amended: every SearchHit produced for a (query, candidate) pair has
lexical_score in [0, 1] (the fuzzy ratio ranges over [0, 100]);
semantic_score lies in [-1, 1], not [0, 1], and confidence lies in
[-78.8, 103.8], not [0, 100], given that every raw similarity of the
unit-normalized embeddings lies in [-1, 1]; the code never clamps, and an
exact CANON_LAT match reaches confidence 103.8. -/
theorem searchHit_bounds_amended (encode : String → List ℚ) (tsr : String → String → ℚ)
    (embs : List (List ℚ)) (lookup : List Row) (query : String)
    (htsr : ∀ a b, 0 ≤ tsr a b ∧ tsr a b ≤ 100)
    (hsem : ∀ e ∈ embs, -1 ≤ dot (encode query) e ∧ dot (encode query) e ≤ 1) :
    ∀ h1 ∈ candidateHits tsr (normalize_query_lex query) lookup
        (recallNoIndex (embs.map (dot (encode query))) lookup.length),
      (0 ≤ h1.lexical_score ∧ h1.lexical_score ≤ 1) ∧
      (-1 ≤ h1.semantic_score ∧ h1.semantic_score ≤ 1) ∧
      (-(788 / 10) ≤ h1.confidence ∧ h1.confidence ≤ 1038 / 10) := by
  intro h1 hmem
  obtain ⟨c, hc, he⟩ := List.mem_filterMap.mp hmem
  rcases hrr : lookup[c.1]? with _ | r
  · rw [hrr] at he
    simp at he
  · rw [hrr] at he
    replace he : some (mkHit tsr (normalize_query_lex query) r c.2) = some h1 := he
    obtain rfl := Option.some_inj.mp he
    obtain ⟨i, hi, rfl⟩ := List.mem_map.mp (by
      simpa only [recallNoIndex] using hc)
    have hb := sims_getD_bounds (encode query) embs hsem i
    exact mkHit_bounds tsr _ r _ htsr hb.1 hb.2

/-- C6 witness: the amended bounds instantiated on the concrete one-row
scenario at its produced hit. -/
theorem searchHit_bounds_amended_witness :
    (0 ≤ hitAlpha.lexical_score ∧ hitAlpha.lexical_score ≤ 1) ∧
    (-1 ≤ hitAlpha.semantic_score ∧ hitAlpha.semantic_score ≤ 1) ∧
    (-(788 / 10) ≤ hitAlpha.confidence ∧ hitAlpha.confidence ≤ 1038 / 10) :=
  searchHit_bounds_amended enc1 tsr100 [[1]] [row1] "alpha"
    (fun a b => by norm_num [tsr100])
    (fun e he => by
      simp only [List.mem_singleton] at he
      subst he
      norm_num [dot, enc1])
    hitAlpha
    (by
      show hitAlpha ∈ candidateHits tsr100 (normalize_query_lex "alpha") [row1]
        (recallNoIndex ([[(1 : ℚ)]].map (dot (enc1 "alpha"))) 1)
      rw [recall_alpha_eval, candidate_alpha_eval]
      exact List.mem_singleton.mpr rfl)

/-- C7 amended: when no nearest-neighbor index is present, recall
retrieval selects the top min(RECALL_K, catalog_size) candidates by
descending similarity, with no guaranteed order among equal similarities:
for EVERY index list np.argsort may legally return (IsAscArgsort, since
its default sort is unstable at catalog scale), the produced candidate
list is sorted by descending similarity, its catalog indices are pairwise
distinct and in range, it carries the score of its index, it has length
min(min(RECALL_K, catalog_size), len(sims)), and every candidate it drops
scores no higher than every candidate it keeps; the coded recall is the
instance of this construction at the concrete realization argsortAsc,
itself a valid argsort. -/
theorem recall_top_descending (sims : List ℚ) (lookupLen : ℕ) (idx : List ℕ)
    (hidx : IsAscArgsort sims idx) :
    (recallFromIdx sims lookupLen idx).Pairwise (fun a b => b.2 ≤ a.2) ∧
    (recallFromIdx sims lookupLen idx).Pairwise (fun a b => a.1 ≠ b.1) ∧
    (∀ c ∈ recallFromIdx sims lookupLen idx,
      c.1 < sims.length ∧ c.2 = sims.getD c.1 0) ∧
    (recallFromIdx sims lookupLen idx).length =
      min (min RECALL_K lookupLen) sims.length ∧
    (∀ c ∈ recallFromIdx sims lookupLen idx,
      ∀ j ∈ (idx.reverse).drop (min RECALL_K lookupLen),
        sims.getD j 0 ≤ sims.getD c.1 0) ∧
    recallNoIndex sims lookupLen = recallFromIdx sims lookupLen (argsortAsc sims) ∧
    IsAscArgsort sims (argsortAsc sims) := by
  obtain ⟨hperm, hsorted⟩ := hidx
  have hrev : (idx.reverse).Pairwise (fun i j => sims.getD j 0 ≤ sims.getD i 0) :=
    List.pairwise_reverse.mpr hsorted
  have htake : ((idx.reverse).take (min RECALL_K lookupLen)).Pairwise
      (fun i j => sims.getD j 0 ≤ sims.getD i 0) :=
    hrev.sublist (List.take_sublist _ _)
  have hnd : idx.Nodup := hperm.nodup_iff.mpr (List.nodup_range _)
  have hndt : ((idx.reverse).take (min RECALL_K lookupLen)).Nodup :=
    (List.nodup_reverse.mpr hnd).sublist (List.take_sublist _ _)
  have hmem : ∀ i ∈ (idx.reverse).take (min RECALL_K lookupLen), i < sims.length := by
    intro i hi
    have h2 : i ∈ idx := List.mem_reverse.mp (List.mem_of_mem_take hi)
    exact List.mem_range.mp (hperm.mem_iff.mp h2)
  refine ⟨?_, ?_, ?_, ?_, ?_, rfl, ?_⟩
  · exact List.pairwise_map.mpr htake
  · exact List.pairwise_map.mpr hndt
  · intro c hc
    obtain ⟨i, hi, rfl⟩ := List.mem_map.mp hc
    exact ⟨hmem i hi, rfl⟩
  · unfold recallFromIdx
    rw [List.length_map, List.length_take, List.length_reverse, hperm.length_eq,
      List.length_range]
  · intro c hc j hj
    obtain ⟨i, hi, rfl⟩ := List.mem_map.mp hc
    have hpa : (((idx.reverse).take (min RECALL_K lookupLen)) ++
        ((idx.reverse).drop (min RECALL_K lookupLen))).Pairwise
        (fun i j => sims.getD j 0 ≤ sims.getD i 0) := by
      rw [List.take_append_drop]
      exact hrev
    exact (List.pairwise_append.mp hpa).2.2 i hi j hj
  · unfold IsAscArgsort
    constructor
    · exact List.perm_insertionSort _ _
    · haveI hAT : IsTrans ℕ (leAsc sims) := ⟨by
        intro a b c hab hbc
        rcases hab with h | ⟨he, hl⟩ <;> rcases hbc with h2 | ⟨he2, hl2⟩
        · exact Or.inl (lt_trans h h2)
        · exact Or.inl (he2 ▸ h)
        · exact Or.inl (he ▸ h2)
        · exact Or.inr ⟨he.trans he2, le_trans hl hl2⟩⟩
      haveI hATot : IsTotal ℕ (leAsc sims) := ⟨by
        intro a b
        rcases lt_trichotomy (sims.getD a 0) (sims.getD b 0) with h | h | h
        · exact Or.inl (Or.inl h)
        · rcases le_total a b with hab | hba
          · exact Or.inl (Or.inr ⟨h, hab⟩)
          · exact Or.inr (Or.inr ⟨h.symm, hba⟩)
        · exact Or.inr (Or.inl h)⟩
      have hs : (argsortAsc sims).Pairwise (leAsc sims) :=
        List.sorted_insertionSort _ _
      refine hs.imp ?_
      intro a b h
      rcases h with h | ⟨he, _⟩
      · exact le_of_lt h
      · exact le_of_eq he

/-- The index list [0, 1] is a valid ascending argsort of the similarity
list [1, 1]. -/
theorem recallIdxAscWitness : IsAscArgsort [(1 : ℚ), 1] [0, 1] := by
  refine ⟨?_, ?_⟩
  · show ([0, 1] : List ℕ).Perm [0, 1]
    exact List.Perm.refl _
  · refine List.Pairwise.cons ?_ (List.pairwise_singleton _ _)
    intro j hj
    rw [List.mem_singleton] at hj
    subst hj
    show (1 : ℚ) ≤ 1
    exact le_refl 1

/-- C7 witness: at similarities [1, 1], catalog size 2 and the valid
ascending argsort [0, 1], the theorem yields concretely the descending
pairwise ordering, the length and the equality of the coded recall with
the instantiated construction. -/
theorem recall_top_descending_witness :
    (recallFromIdx [(1 : ℚ), 1] 2 [0, 1]).Pairwise (fun a b => b.2 ≤ a.2) ∧
    (recallFromIdx [(1 : ℚ), 1] 2 [0, 1]).length = min (min RECALL_K 2) 2 ∧
    recallNoIndex [(1 : ℚ), 1] 2 = recallFromIdx [(1 : ℚ), 1] 2 (argsortAsc [(1 : ℚ), 1]) :=
  ⟨(recall_top_descending [(1 : ℚ), 1] 2 [0, 1] recallIdxAscWitness).1,
   (recall_top_descending [(1 : ℚ), 1] 2 [0, 1] recallIdxAscWitness).2.2.2.1,
   (recall_top_descending [(1 : ℚ), 1] 2 [0, 1] recallIdxAscWitness).2.2.2.2.2.1⟩

/-- C7 counterexample: on two stored embeddings with equal similarity 1
the code returns candidate 1 before candidate 0, while the claimed order
(ties by original catalog order) returns candidate 0 first.  At two
elements np.argsort runs its stable insertion sort, so the concrete
realization argsortAsc is exact for this input. -/
theorem recall_tie_order_cex :
    recallCosine [1] [[1], [1]] 2 = [(1, 1), (0, 1)] ∧
    recallSpecCosine [1] [[1], [1]] 2 = [(0, 1), (1, 1)] := by
  constructor
  · norm_num [recallCosine, recallNoIndex, argsortAsc, dot, RECALL_K, leAsc,
      List.insertionSort, List.orderedInsert, List.range_succ,
      List.getD_cons_zero, List.getD_cons_succ]
  · norm_num [recallSpecCosine, recallSpec, dot, RECALL_K, leDescOrig,
      List.insertionSort, List.orderedInsert, List.range_succ,
      List.getD_cons_zero, List.getD_cons_succ]

/-- Closure check of the fold table, established by computation: every
kept character in the image of the table is itself absent from the table,
hence folds to itself. -/
theorem foldTable_closed :
    (foldTable.all (fun p => p.2.all (fun n =>
      !(isKept (Char.ofNat n)) || (foldTable.lookup (Char.ofNat n).toNat).isNone))) = true := by
  decide

/-- Kept characters in the image of the fold are fold-stable. -/
theorem charFold_output_stable (c d : Char) (hd : d ∈ charFold c) (hk : isKept d = true) :
    charFold d = [d] := by
  unfold charFold at hd ⊢
  rcases hl : foldTable.lookup c.toNat with _ | ds
  · rw [hl] at hd
    obtain rfl := List.mem_singleton.mp hd
    rw [hl]
  · rw [hl] at hd
    obtain ⟨n, hn, rfl⟩ := List.mem_map.mp hd
    obtain ⟨k, hmem⟩ := lookup_mem_pair c.toNat foldTable ds hl
    have hall : ds.all (fun n => !(isKept (Char.ofNat n)) ||
        (foldTable.lookup (Char.ofNat n).toNat).isNone) = true :=
      List.all_eq_true.mp foldTable_closed (k, ds) hmem
    have hout := List.all_eq_true.mp hall n hn
    rw [hk] at hout
    simp only [Bool.not_true, Bool.false_or, Option.isNone_iff_eq_none] at hout
    rw [hout]

/-- Kept characters have code points at most 0x17F. -/
theorem isKept_le (c : Char) (h : isKept c = true) : c.toNat ≤ 0x17F := by
  unfold isKept isKeptNat at h
  simp only [Bool.or_eq_true, Bool.and_eq_true, decide_eq_true_eq, beq_iff_eq] at h
  omega

/-- Kept characters are not dash-like, hence untouched by the dash
substitution. -/
theorem kept_not_dash (c : Char) (h : isKept c = true) : dashToHyphen c = c := by
  have hle := isKept_le c h
  have hd : dashRange c.toNat = false := by
    unfold dashRange
    simp only [Bool.or_eq_false_iff, beq_eq_false_iff_ne, ne_eq, Bool.and_eq_false_iff,
      decide_eq_false_iff_not, not_le]
    omega
  unfold dashToHyphen
  rw [hd]
  rfl

/-- The space is stable under every stage. -/
theorem stable_space : StableChar ' ' := by
  refine ⟨rfl, ?_, rfl⟩
  decide

/-- The hyphen is stable under every stage. -/
theorem stable_hyphen : StableChar '-' := by
  refine ⟨rfl, ?_, rfl⟩
  decide

/-- Characters of the collapsed list come from the input list. -/
theorem mem_collapseAux (m : List Char) (b : Bool) (c : Char)
    (h : c ∈ collapseAux m b) : c ∈ m := by
  induction m generalizing b with
  | nil => simp [collapseAux] at h
  | cons d cs ih =>
    by_cases hd : d = ' '
    · subst hd
      rcases b with _ | _
      · simp only [collapseAux, if_pos rfl, if_neg Bool.false_ne_true] at h
        rcases List.mem_cons.mp h with rfl | h2
        · exact List.mem_cons_self _ _
        · exact List.mem_cons_of_mem _ (ih true h2)
      · simp only [collapseAux, if_pos rfl, if_pos rfl] at h
        exact List.mem_cons_of_mem _ (ih true h)
    · simp only [collapseAux, if_neg hd] at h
      rcases List.mem_cons.mp h with rfl | h2
      · exact List.mem_cons_self _ _
      · exact List.mem_cons_of_mem _ (ih false h2)

/-- Characters of the stripped list come from the input list. -/
theorem mem_stripSpaces (k : List Char) (c : Char) (h : c ∈ stripSpaces k) : c ∈ k := by
  unfold stripSpaces at h
  rw [List.mem_reverse] at h
  have h2 := List.Sublist.mem h (List.dropWhile_sublist _)
  rw [List.mem_reverse] at h2
  exact List.Sublist.mem h2 (List.dropWhile_sublist _)

/-- Every character of the normalizer output is stable. -/
theorem normChars_stable (l : List Char) : ∀ c ∈ normChars l, StableChar c := by
  intro c hc
  have h1 := mem_stripSpaces _ c hc
  have h2 := mem_collapseAux _ _ c h1
  obtain ⟨d, hd, rfl⟩ := List.mem_map.mp h2
  by_cases hk : isKept (dashToHyphen d) = true
  · have hks : keepOrSpace (dashToHyphen d) = dashToHyphen d := by
      unfold keepOrSpace
      rw [hk]
      rfl
    rw [hks]
    by_cases hdr : dashRange d.toNat = true
    · have hdh : dashToHyphen d = '-' := by
        unfold dashToHyphen
        rw [hdr]
        rfl
      rw [hdh]
      exact stable_hyphen
    · have hdh : dashToHyphen d = d := by
        unfold dashToHyphen
        rw [Bool.not_eq_true] at hdr
        rw [hdr]
        rfl
      rw [hdh] at hk ⊢
      obtain ⟨e, _, hde⟩ := List.mem_flatMap.mp hd
      exact ⟨hk, charFold_output_stable e d hde hk, kept_not_dash d hk⟩
  · have hks : keepOrSpace (dashToHyphen d) = ' ' := by
      unfold keepOrSpace
      rw [Bool.not_eq_true] at hk
      rw [hk]
      rfl
    rw [hks]
    exact stable_space

/-- The fold is the identity on lists of fold-stable characters. -/
theorem flatMap_stable_id (l : List Char) (h : ∀ c ∈ l, charFold c = [c]) :
    l.flatMap charFold = l := by
  induction l with
  | nil => rfl
  | cons d cs ih =>
    rw [List.flatMap_cons, h d (List.mem_cons_self _ _),
      ih (fun c hc => h c (List.mem_cons_of_mem _ hc))]
    rfl

/-- The dash and class stages are the identity on stable characters. -/
theorem map_stable_id (l : List Char) (h : ∀ c ∈ l, StableChar c) :
    l.map (fun c => keepOrSpace (dashToHyphen c)) = l := by
  have : ∀ c ∈ l, keepOrSpace (dashToHyphen c) = id c := by
    intro c hc
    obtain ⟨hk, _, hdash⟩ := h c hc
    rw [hdash]
    unfold keepOrSpace
    rw [hk]
    rfl
  rw [List.map_congr_left this, List.map_id]

/-- Unfolding equation: a space after a non-space is kept and flips the
flag. -/
theorem collapseAux_cons_space_false (cs : List Char) :
    collapseAux (' ' :: cs) false = ' ' :: collapseAux cs true := rfl

/-- Unfolding equation: a space after a space is dropped. -/
theorem collapseAux_cons_space_true (cs : List Char) :
    collapseAux (' ' :: cs) true = collapseAux cs true := rfl

/-- Unfolding equation: a non-space is kept and clears the flag. -/
theorem collapseAux_cons_ne (d : Char) (cs : List Char) (b : Bool) (hd : d ≠ ' ') :
    collapseAux (d :: cs) b = d :: collapseAux cs false := by
  rw [collapseAux, if_neg hd]

/-- The whitespace collapse is the identity on lists with no two adjacent
spaces, provided the flag does not forbid a leading space that is there. -/
theorem collapseAux_eq_self (l : List Char) (b : Bool)
    (hch : List.Chain' noTwoSpaces l)
    (hb : b = true → l.head? ≠ some ' ') :
    collapseAux l b = l := by
  induction l generalizing b with
  | nil => rfl
  | cons d cs ih =>
    by_cases hd : d = ' '
    · subst hd
      have hb2 : b = false := by
        rcases b with _ | _
        · rfl
        · exact absurd rfl (hb rfl)
      subst hb2
      rw [collapseAux_cons_space_false]
      congr 1
      apply ih
      · exact (List.chain'_cons'.mp hch).2
      · intro _
        rcases hcs : cs.head? with _ | e
        · simp
        · have hrel := (List.chain'_cons'.mp hch).1 e (by rw [hcs]; rfl)
          unfold noTwoSpaces at hrel
          intro hcontra
          have he : e = ' ' := by
            injection hcontra
          exact hrel ⟨rfl, he⟩
    · rw [collapseAux_cons_ne d cs b hd]
      congr 1
      apply ih
      · exact (List.chain'_cons'.mp hch).2
      · intro hfalse
        exact absurd hfalse (by simp)

/-- The collapse started in the space-seen state never begins with a
space. -/
theorem collapseAux_head (m : List Char) : (collapseAux m true).head? ≠ some ' ' := by
  induction m with
  | nil => simp [collapseAux]
  | cons d cs ih =>
    by_cases hd : d = ' '
    · subst hd
      rw [collapseAux_cons_space_true]
      exact ih
    · rw [collapseAux_cons_ne d cs true hd]
      simp only [List.head?_cons, ne_eq, Option.some.injEq]
      exact hd

/-- The collapse output never has two adjacent spaces. -/
theorem collapseAux_chain (m : List Char) (b : Bool) :
    List.Chain' noTwoSpaces (collapseAux m b) := by
  induction m generalizing b with
  | nil => simp [collapseAux]
  | cons d cs ih =>
    by_cases hd : d = ' '
    · subst hd
      rcases b with _ | _
      · rw [collapseAux_cons_space_false]
        rw [List.chain'_cons']
        refine ⟨?_, ih true⟩
        intro y hy
        unfold noTwoSpaces
        rintro ⟨-, hy2⟩
        apply collapseAux_head cs
        rw [← hy2]
        exact hy
      · rw [collapseAux_cons_space_true]
        exact ih true
    · rw [collapseAux_cons_ne d cs b hd]
      rw [List.chain'_cons']
      refine ⟨?_, ih false⟩
      intro y _
      unfold noTwoSpaces
      rintro ⟨h1, -⟩
      exact hd h1

/-- After dropping leading spaces the head is not a space. -/
theorem head_dropWhile_space (k : List Char) (e : Char)
    (h : (k.dropWhile (fun c => c == ' ')).head? = some e) : e ≠ ' ' := by
  induction k with
  | nil => simp [List.dropWhile] at h
  | cons d cs ih =>
    by_cases hd : d = ' '
    · subst hd
      rw [List.dropWhile_cons_of_pos (by simp)] at h
      exact ih h
    · rw [List.dropWhile_cons_of_neg (by simpa using hd)] at h
      rw [List.head?_cons] at h
      have hde : d = e := by injection h
      rw [← hde]
      exact hd

/-- Dropping a prefix preserves the no-two-spaces chain. -/
theorem chain'_dropWhile (p : Char → Bool) (k : List Char)
    (h : List.Chain' noTwoSpaces k) : List.Chain' noTwoSpaces (k.dropWhile p) := by
  induction k with
  | nil => simp
  | cons d cs ih =>
    by_cases hp : p d = true
    · rw [List.dropWhile_cons_of_pos hp]
      exact ih (List.chain'_cons'.mp h).2
    · rw [List.dropWhile_cons_of_neg (by simpa using hp)]
      exact h

/-- Reversal preserves the no-two-spaces chain, which is symmetric. -/
theorem chain'_rev (k : List Char) (h : List.Chain' noTwoSpaces k) :
    List.Chain' noTwoSpaces k.reverse := by
  rw [List.chain'_reverse]
  refine h.imp ?_
  intro a b hab
  unfold noTwoSpaces at hab ⊢
  rintro ⟨h1, h2⟩
  exact hab ⟨h2, h1⟩

/-- Stripping preserves the no-two-spaces chain. -/
theorem stripSpaces_chain (k : List Char) (h : List.Chain' noTwoSpaces k) :
    List.Chain' noTwoSpaces (stripSpaces k) := by
  unfold stripSpaces
  apply chain'_rev
  apply chain'_dropWhile
  apply chain'_rev
  apply chain'_dropWhile
  exact h

/-- The stripped list does not end with a space. -/
theorem stripSpaces_last (k : List Char) (e : Char)
    (h : (stripSpaces k).reverse.head? = some e) : e ≠ ' ' := by
  unfold stripSpaces at h
  rw [List.reverse_reverse] at h
  exact head_dropWhile_space _ e h

/-- The stripped list does not begin with a space. -/
theorem stripSpaces_head (k : List Char) (e : Char)
    (h : (stripSpaces k).head? = some e) : e ≠ ' ' := by
  unfold stripSpaces at h
  rcases hx : k.dropWhile (fun c => c == ' ') with _ | ⟨c, t⟩
  · rw [hx] at h
    simp at h
  · have hc : c ≠ ' ' := head_dropWhile_space k c (by rw [hx, List.head?_cons])
    rw [hx, List.reverse_cons, List.dropWhile_append] at h
    by_cases he : ((t.reverse).dropWhile (fun c2 => c2 == ' ')).isEmpty = true
    · rw [if_pos he] at h
      have hdc : List.dropWhile (fun c2 => c2 == ' ') [c] = [c] := by
        rw [List.dropWhile_cons_of_neg (by simpa using hc)]
      rw [hdc] at h
      simp only [List.reverse_cons, List.reverse_nil, List.nil_append, List.head?_cons] at h
      have hce : c = e := by injection h
      rw [← hce]
      exact hc
    · rw [if_neg he, List.reverse_append] at h
      simp only [List.reverse_cons, List.reverse_nil, List.nil_append,
        List.singleton_append, List.head?_cons] at h
      have hce : c = e := by injection h
      rw [← hce]
      exact hc

/-- The normalizer is the identity on canonical lists: all characters
stable, no two adjacent spaces, no leading space and no trailing space. -/
theorem normChars_canon_id (l : List Char)
    (hst : ∀ c ∈ l, StableChar c)
    (hch : List.Chain' noTwoSpaces l)
    (hh : ∀ e, l.head? = some e → e ≠ ' ')
    (hl2 : ∀ e, l.reverse.head? = some e → e ≠ ' ') :
    normChars l = l := by
  unfold normChars
  rw [flatMap_stable_id l (fun c hc => (hst c hc).2.1)]
  rw [map_stable_id l hst]
  rw [collapseAux_eq_self l false hch (fun hf => absurd hf (by simp))]
  unfold stripSpaces
  have h1 : l.dropWhile (fun c => c == ' ') = l := by
    rcases l with _ | ⟨d, cs⟩
    · rfl
    · have hd : d ≠ ' ' := hh d rfl
      rw [List.dropWhile_cons_of_neg (by simpa using hd)]
  rw [h1]
  have h2 : l.reverse.dropWhile (fun c => c == ' ') = l.reverse := by
    rcases hr : l.reverse with _ | ⟨d, cs⟩
    · rfl
    · have hd : d ≠ ' ' := hl2 d (by rw [hr, List.head?_cons])
      rw [List.dropWhile_cons_of_neg (by simpa using hd)]
  rw [h2, List.reverse_reverse]

/-- C3: the text normalizer is idempotent: normalizing twice equals
normalizing once, for every input string. -/
theorem normalize_query_lex_idempotent (s : String) :
    normalize_query_lex (normalize_query_lex s) = normalize_query_lex s := by
  show String.mk (normChars (String.mk (normChars s.data)).data) = String.mk (normChars s.data)
  have hdata : (String.mk (normChars s.data)).data = normChars s.data := rfl
  rw [hdata]
  congr 1
  apply normChars_canon_id
  · exact normChars_stable s.data
  · show List.Chain' noTwoSpaces (normChars s.data)
    unfold normChars
    exact stripSpaces_chain _ (collapseAux_chain _ _)
  · intro e he
    unfold normChars at he
    exact stripSpaces_head _ e he
  · intro e he
    unfold normChars at he
    exact stripSpaces_last _ e he
